import Mathlib

/-!
Shallow embedding of `src/confluence_markdown_extension.py`.

The three processors of the repository are pure text transforms:
* `SectionLinkPreprocessor.run`   — per-line `re.sub(r'\]\(#+', r'](#', line)`
* `IndentedCodeBlockPreprocessor.run` — fence-tracking automaton over lines
* `CodeBlockPostprocessor.run`    — two regex substitution passes over the
  rendered HTML plus a conditional bash→shell remap

Lines and texts are modelled as `String` / `List Char`.  Python whitespace
(`\s`, `str.isspace`, `str.lstrip`) is modelled over the ASCII whitespace
characters; Python `\w` is modelled as ASCII alphanumeric or underscore.
-/

/-- Model of Python whitespace (`\s`, `str.isspace`, `str.lstrip`),
restricted to the ASCII whitespace characters. -/
def isPySpace (c : Char) : Bool :=
  c == ' ' || c == '\t' || c == '\n' || c == '\x0b' || c == '\x0c' || c == '\r'

/-- Model of Python `\w` (regex word character), ASCII fragment. -/
def isWordChar (c : Char) : Bool :=
  c.isAlphanum || c == '_'

/-- `startsL p l` is true when the list `p` is an initial segment of `l`
(the role `startswith` / anchored literal matching plays in the source). -/
def startsL : List Char → List Char → Bool
  | [], _ => true
  | _ :: _, [] => false
  | p :: ps, a :: as => p == a && startsL ps as

/-- `containsSeq pat l` is true when `pat` occurs as a contiguous substring
of `l` (the occurrence test performed by `re.sub` with a literal pattern). -/
def containsSeq (pat : List Char) : List Char → Bool
  | [] => pat.isEmpty
  | a :: rest => startsL pat (a :: rest) || containsSeq pat rest

/-- Splits `l` at the first (leftmost) occurrence of `pat`, returning the
text before the occurrence and the text after it.  This is how the
non-greedy `(.*?)PAT` regex fragment consumes text. -/
def splitOnFirst (pat : List Char) : List Char → Option (List Char × List Char)
  | [] => if startsL pat [] then some ([], []) else none
  | c :: rest =>
      if startsL pat (c :: rest) then some ([], List.drop pat.length (c :: rest))
      else (splitOnFirst pat rest).map (fun pr => (c :: pr.1, pr.2))

namespace SectionLinkPreprocessor

/-- One-pass scanner equivalent to `re.sub(r'\]\(#+', r'](#', line)`:
on a match `](` followed by a maximal nonempty run of `#`, emit `](#` and
skip the remaining hashes of the run (the `skip` flag), then continue. -/
def saGo : Bool → List Char → List Char
  | true, '#' :: rest => saGo true rest
  | _, ']' :: '(' :: '#' :: rest => ']' :: '(' :: '#' :: saGo true rest
  | _, c :: rest => c :: saGo false rest
  | _, [] => []

/-- `SectionLinkPreprocessor.run` from the source: applies the
anchor-normalizing substitution to every line. -/
def run (lines : List String) : List String :=
  lines.map fun line => String.mk (saGo false line.toList)

/-- The forbidden anchor shape: a link opener followed by two hashes. -/
def dblL : List Char := "](##".toList

end SectionLinkPreprocessor

namespace IndentedCodeBlockPreprocessor

/-- `line.lstrip()` on a char list. -/
def lstripL (l : List Char) : List Char := l.dropWhile isPySpace

/-- `len(line) - len(line.lstrip())` — the indent width of a fence line. -/
def indentOf (l : List Char) : Nat := l.length - (lstripL l).length

/-- `re.match(r'^(\s*)```', line)`: optional leading whitespace then
three backticks. -/
def isFenceOpen (l : List Char) : Bool := startsL ("```".toList) (lstripL l)

/-- `re.match(r'^(\s*)```\s*$', line)`: optional leading whitespace, three
backticks, then only whitespace to end of line. -/
def isFenceClose (l : List Char) : Bool :=
  startsL ("```".toList) (lstripL l) && (List.drop 3 (lstripL l)).all isPySpace

/-- The body of the inside-block branch:
`if len(line) >= k and line[:k].isspace(): line[k:] else line`
(note Python's `"".isspace()` is `False`, faithfully modelled by the
nonempty requirement). -/
def dedentBy (k : Nat) (l : List Char) : List Char :=
  if k ≤ l.length && !(List.take k l).isEmpty && (List.take k l).all isPySpace then
    List.drop k l
  else l

/-- The fence automaton of `IndentedCodeBlockPreprocessor.run`: state is
`in_code_block` and `code_block_indent`. -/
def runFrom : Bool → Nat → List String → List String
  | _, _, [] => []
  | inCB, k, line :: rest =>
    if !inCB && isFenceOpen line.toList then
      String.mk (lstripL line.toList) :: runFrom true (indentOf line.toList) rest
    else if inCB && isFenceClose line.toList then
      String.mk (lstripL line.toList) :: runFrom false 0 rest
    else if inCB then
      String.mk (dedentBy k line.toList) :: runFrom inCB k rest
    else
      line :: runFrom inCB k rest

/-- `IndentedCodeBlockPreprocessor.run` from the source. -/
def run (lines : List String) : List String := runFrom false 0 lines

end IndentedCodeBlockPreprocessor

/-- Model of Python's `html.unescape` restricted to the named character
references `amp`, `lt`, `gt`, `quot` and the numeric reference `#39`
(each with and without a trailing semicolon, mirroring CPython's
longest-match lookup in the `html5` table).  This is the entity decoding
performed by `decode_and_wrap` in the source. -/
def unescape : List Char → List Char
  | [] => []
  | '&' :: 'a' :: 'm' :: 'p' :: ';' :: rest => '&' :: unescape rest
  | '&' :: 'a' :: 'm' :: 'p' :: rest => '&' :: unescape rest
  | '&' :: 'l' :: 't' :: ';' :: rest => '<' :: unescape rest
  | '&' :: 'l' :: 't' :: rest => '<' :: unescape rest
  | '&' :: 'g' :: 't' :: ';' :: rest => '>' :: unescape rest
  | '&' :: 'g' :: 't' :: rest => '>' :: unescape rest
  | '&' :: 'q' :: 'u' :: 'o' :: 't' :: ';' :: rest => Char.ofNat 34 :: unescape rest
  | '&' :: 'q' :: 'u' :: 'o' :: 't' :: rest => Char.ofNat 34 :: unescape rest
  | '&' :: '#' :: '3' :: '9' :: ';' :: rest => Char.ofNat 39 :: unescape rest
  | '&' :: '#' :: '3' :: '9' :: rest => Char.ofNat 39 :: unescape rest
  | c :: rest => c :: unescape rest

namespace CodeBlockPostprocessor

/-- The fixed text of the tagged-pass pattern before the language group. -/
def pre1L : List Char := "<pre><code class=\"language-".toList

/-- The fixed text of the untagged-pass pattern head. -/
def pre2L : List Char := "<pre><code>".toList

/-- The literal `">` that closes the language attribute in pass 1. -/
def qgL : List Char := "\">".toList

/-- The literal `</code></pre>` closing both patterns. -/
def closeL : List Char := "</code></pre>".toList

/-- Macro text up to the language parameter value. -/
def macroP1L : List Char :=
  "<ac:structured-macro ac:name=\"code\"><ac:parameter ac:name=\"language\">".toList

/-- Macro text between the language value and the CDATA body. -/
def macroP2L : List Char :=
  "</ac:parameter><ac:plain-text-body><![CDATA[".toList

/-- Macro text after the CDATA body. -/
def macroP3L : List Char :=
  "]]></ac:plain-text-body></ac:structured-macro>".toList

/-- The remap pattern `<ac:parameter ac:name="language">bash</ac:parameter>`. -/
def bashL : List Char :=
  "<ac:parameter ac:name=\"language\">bash</ac:parameter>".toList

/-- The remap replacement with language value `shell`. -/
def shellL : List Char :=
  "<ac:parameter ac:name=\"language\">shell</ac:parameter>".toList

/-- `decode_and_wrap` for a tagged-pass match (`lastindex = 2`):
`language = group(1)`, `content = group(2)`, body is the entity-decoded
content. -/
def macro1 (lang content : List Char) : List Char :=
  macroP1L ++ lang ++ macroP2L ++ unescape content ++ macroP3L

/-- `decode_and_wrap` for an untagged-pass match (`lastindex = 1`, so
`match.lastindex >= 1` selects `group(1)` — the raw content — as the
language, and `match.lastindex >= 2` is false, so the content is also
`group(1)`). -/
def macro2 (content : List Char) : List Char :=
  macroP1L ++ content ++ macroP2L ++ unescape content ++ macroP3L

/-- The text after the fixed head `pre1L` at a candidate pass-1 match. -/
def afterPre1 (l : List Char) : List Char := List.drop pre1L.length l

/-- Whether the language group and its closing `">` match at this
position (the `class="language-(\w+)">` fragment). -/
def tagCond (l : List Char) : Bool :=
  !((afterPre1 l).takeWhile isWordChar).isEmpty &&
    startsL qgL ((afterPre1 l).dropWhile isWordChar)

/-- The lazy-content split for a pass-1 candidate: first `</code></pre>`
after the language attribute. -/
def tagSplit (l : List Char) : Option (List Char × List Char) :=
  splitOnFirst closeL (List.drop 2 ((afterPre1 l).dropWhile isWordChar))

/-- Fuelled scanner for the tagged pass
`re.sub(r'<pre><code class="language-(\w+)">(.*?)</code></pre>', ..., DOTALL)`.
On failure at a position the engine advances one character, exactly as
`re.sub` does.  Fuel at least the list length never runs out. -/
def sub1Go : Nat → List Char → List Char
  | 0, l => l
  | _ + 1, [] => []
  | n + 1, c :: rest =>
    if startsL pre1L (c :: rest) && tagCond (c :: rest) then
      match tagSplit (c :: rest) with
      | some (content, after) =>
          macro1 ((afterPre1 (c :: rest)).takeWhile isWordChar) content ++ sub1Go n after
      | none => c :: sub1Go n rest
    else c :: sub1Go n rest

/-- The tagged pass. -/
def sub1 (l : List Char) : List Char := sub1Go l.length l

/-- Whether the tagged pass finds at least one match in `l`. -/
def hasMatch1 : List Char → Bool
  | [] => false
  | c :: rest =>
    (startsL pre1L (c :: rest) && tagCond (c :: rest) && (tagSplit (c :: rest)).isSome)
      || hasMatch1 rest

/-- Fuelled scanner for the untagged pass
`re.sub(r'<pre><code>(.*?)</code></pre>', ..., DOTALL)`. -/
def sub2Go : Nat → List Char → List Char
  | 0, l => l
  | _ + 1, [] => []
  | n + 1, c :: rest =>
    if startsL pre2L (c :: rest) then
      match splitOnFirst closeL (List.drop pre2L.length (c :: rest)) with
      | some (content, after) => macro2 content ++ sub2Go n after
      | none => c :: sub2Go n rest
    else c :: sub2Go n rest

/-- The untagged pass. -/
def sub2 (l : List Char) : List Char := sub2Go l.length l

/-- Whether the untagged pass finds at least one match in `l`. -/
def hasMatch2 : List Char → Bool
  | [] => false
  | c :: rest =>
    (startsL pre2L (c :: rest) &&
      (splitOnFirst closeL (List.drop pre2L.length (c :: rest))).isSome)
      || hasMatch2 rest

/-- Fuelled scanner for the final literal substitution
`re.sub('<ac:parameter ac:name="language">bash</ac:parameter>', shell…)`. -/
def remapGo : Nat → List Char → List Char
  | 0, l => l
  | _ + 1, [] => []
  | n + 1, c :: rest =>
    if startsL bashL (c :: rest) then
      shellL ++ remapGo n (List.drop bashL.length (c :: rest))
    else c :: remapGo n rest

/-- The bash→shell remap substitution. -/
def remap (l : List Char) : List Char := remapGo l.length l

/-- `CodeBlockPostprocessor.run` on char lists: both passes, then the
remap if and only if the text changed. -/
def runL (l : List Char) : List Char :=
  let p := sub2 (sub1 l)
  if p = l then p else remap p

/-- `CodeBlockPostprocessor.run` from the source. -/
def run (text : String) : String := String.mk (runL text.toList)

end CodeBlockPostprocessor

/-- Modelled from the spec: the indentation-stripping step the spec
describes for `decode_and_wrap` (absent from the source).  For multi-line
content: the minimum leading-whitespace width over non-blank lines is
stripped from every line long enough; single-line content is unchanged. -/
def specDedent (l : List Char) : List Char :=
  if l.contains '\n' then
    let ls := l.splitOn '\n'
    let widths := (ls.filter (fun li => !li.all isPySpace)).map
      (fun li => (li.takeWhile isPySpace).length)
    let k := match widths with
      | [] => 0
      | w :: ws => ws.foldl min w
    List.intercalate ['\n'] (ls.map (fun li => if k ≤ li.length then List.drop k li else li))
  else l


theorem startsL_false_of_head (p : Char) (ps Y) (h : Y.head? ≠ some p) :
    startsL (p :: ps) Y = false := by
  cases Y with
  | nil => rfl
  | cons y ys =>
      simp at h
      simp [startsL]
      intro hp
      exact absurd hp.symm h

namespace SectionLinkPreprocessor

theorem saGo_nil (b : Bool) : saGo b [] = [] := by cases b <;> rfl

theorem saGo_pat (b : Bool) (t : List Char) :
    saGo b (']' :: '(' :: '#' :: t) = ']' :: '(' :: '#' :: saGo true t := by
  cases b <;> rfl

theorem saGo_cons_eq (b : Bool) (c : Char) (r : List Char)
    (h1 : b = true → c ≠ '#') (h2 : c = ']' → ∀ r2, r ≠ '(' :: '#' :: r2) :
    saGo b (c :: r) = c :: saGo false r := by
  rw [saGo.eq_def]
  split <;> simp_all

theorem saGo_false_head (l : List Char) : (saGo false l).head? = l.head? := by
  rw [saGo.eq_def]
  split <;> simp_all

theorem saGo_head_hash (b : Bool) (l : List Char) :
    ∀ c, (saGo b l).head? = some c → b = true → c ≠ '#' := by
  induction b, l using saGo.induct with
  | case1 rest ih =>
      intro c h _
      exact ih c h rfl
  | case2 x rest ih =>
      intro c h _
      rw [saGo_pat] at h
      simp at h
      subst h
      decide
  | case3 x c rest hx1 hx2 ih =>
      intro c' h hb
      rw [saGo_cons_eq x c rest (fun ht hc => hx1 ht hc) (fun hc r2 hr => hx2 r2 hc hr)] at h
      simp at h
      subst h
      exact fun hcc => hx1 hb hcc
  | case4 x =>
      intro c h
      rw [saGo_nil] at h
      simp at h

theorem saGo_idem (b : Bool) (l : List Char) : saGo b (saGo b l) = saGo b l := by
  induction b, l using saGo.induct with
  | case1 rest ih =>
      show saGo true (saGo true rest) = saGo true rest
      exact ih
  | case2 x rest ih =>
      rw [saGo_pat, saGo_pat, ih]
  | case3 x c rest hx1 hx2 ih =>
      have e1 : saGo x (c :: rest) = c :: saGo false rest :=
        saGo_cons_eq x c rest (fun ht hc => hx1 ht hc) (fun hc r2 hr => hx2 r2 hc hr)
      rw [e1]
      have e2 : saGo x (c :: saGo false rest) = c :: saGo false (saGo false rest) := by
        apply saGo_cons_eq x c (saGo false rest) (fun ht hc => hx1 ht hc)
        intro hc r2 hr
        have hh : (saGo false rest).head? = rest.head? := saGo_false_head rest
        rw [hr] at hh
        cases rest with
        | nil => simp at hh
        | cons d r' =>
            simp at hh
            subst hh
            have e3 : saGo false ('(' :: r') = '(' :: saGo false r' := by
              apply saGo_cons_eq
              · intro ht; simp
              · intro hd; simp at hd
            rw [e3] at hr
            simp at hr
            have hh2 : (saGo false r').head? = r'.head? := saGo_false_head r'
            rw [hr] at hh2
            cases r' with
            | nil => simp at hh2
            | cons d2 r2' =>
                simp at hh2
                subst hh2
                exact hx2 r2' hc rfl
      rw [e2, ih]
  | case4 x =>
      rw [saGo_nil, saGo_nil]

theorem dblL_eq : dblL = ']' :: '(' :: '#' :: '#' :: [] := by decide

theorem saGo_no_dbl (b : Bool) (l : List Char) : containsSeq dblL (saGo b l) = false := by
  induction b, l using saGo.induct with
  | case1 rest ih => exact ih
  | case2 x rest ih =>
      rw [saGo_pat]
      have hd : (saGo true rest).head? ≠ some '#' := by
        intro h
        exact saGo_head_hash true rest '#' h rfl rfl
      rw [dblL_eq] at ih ⊢
      simp only [containsSeq, ih, Bool.or_false]
      have h1 : startsL ['#'] (saGo true rest) = false := startsL_false_of_head _ _ _ hd
      simp +decide [startsL, h1]
  | case3 x c rest hx1 hx2 ih =>
      rw [saGo_cons_eq x c rest (fun ht hc => hx1 ht hc) (fun hc r2 hr => hx2 r2 hc hr)]
      rw [dblL_eq] at ih ⊢
      simp only [containsSeq, ih, Bool.or_false]
      by_cases hc : c = ']'
      · subst hc
        have hstart : startsL ['(', '#', '#'] (saGo false rest) = false := by
          cases hrest : rest with
          | nil => rw [saGo_nil]; rfl
          | cons d r' =>
              by_cases hd : d = '('
              · subst hd
                have hr'h : r'.head? ≠ some '#' := by
                  intro hz
                  cases r' with
                  | nil => simp at hz
                  | cons w ws =>
                      simp at hz
                      subst hz
                      exact hx2 ws rfl hrest
                have e3 : saGo false ('(' :: r') = '(' :: saGo false r' := by
                  apply saGo_cons_eq
                  · intro ht; simp
                  · intro h2; simp at h2
                rw [e3]
                have hh2 : (saGo false r').head? ≠ some '#' := by
                  rw [saGo_false_head r']
                  exact hr'h
                have h4 : startsL ['#', '#'] (saGo false r') = false :=
                  startsL_false_of_head _ _ _ hh2
                simp +decide [startsL, h4]
              · have hh : (saGo false (d :: r')).head? = some d := by
                  rw [saGo_false_head]
                  rfl
                apply startsL_false_of_head
                rw [hh]
                simp
                intro h5
                exact hd h5
        simp +decide [startsL, hstart]
      · have h6 : startsL (']' :: '(' :: '#' :: '#' :: []) (c :: saGo false rest) = false := by
          apply startsL_false_of_head
          simp
          intro h7
          exact hc h7
        simp [h6]
  | case4 x =>
      rw [saGo_nil]
      decide

end SectionLinkPreprocessor

theorem toList_mk (l : List Char) : (String.mk l).toList = l := rfl

theorem mk_toList (s : String) : String.mk s.toList = s := by
  cases s
  rfl

namespace IndentedCodeBlockPreprocessor

theorem runFrom_length (lines : List String) :
    ∀ b k, (runFrom b k lines).length = lines.length := by
  induction lines with
  | nil => intro b k; rfl
  | cons line rest ih =>
      intro b k
      rw [runFrom]
      split
      · simp [ih]
      · split
        · simp [ih]
        · split
          · simp [ih]
          · simp [ih]

theorem runFrom_inside (k : Nat) (rest : List String)
    (hnc : ∀ r ∈ rest, isFenceClose r.toList = false) :
    runFrom true k rest = rest.map (fun r => String.mk (dedentBy k r.toList)) := by
  induction rest with
  | nil => rfl
  | cons line rs ih =>
      rw [runFrom]
      have h1 : isFenceClose line.toList = false := hnc line (by simp)
      split
      · next h => simp at h
      · split
        · next h => rw [h1] at h; simp at h
        · split
          · rw [List.map_cons, ih (fun r hr => hnc r (by simp [hr]))]
          · next h => simp at h

end IndentedCodeBlockPreprocessor

/-- C6: whenever the automaton of `IndentedCodeBlockPreprocessor.run` is
outside a block and meets a fence-open line that is never followed by a
fence-close, it strips the fence line and dedents every remaining line of
the document by the indent width recorded at that fence-open; the result
is total (no error). -/
theorem c6_unterminated_block (k : Nat) (openLine : String) (rest : List String)
    (hopen : IndentedCodeBlockPreprocessor.isFenceOpen openLine.toList = true)
    (hnc : ∀ r ∈ rest, IndentedCodeBlockPreprocessor.isFenceClose r.toList = false) :
    IndentedCodeBlockPreprocessor.runFrom false k (openLine :: rest) =
      String.mk (IndentedCodeBlockPreprocessor.lstripL openLine.toList) ::
        rest.map (fun r => String.mk (IndentedCodeBlockPreprocessor.dedentBy
          (IndentedCodeBlockPreprocessor.indentOf openLine.toList) r.toList)) := by
  rw [IndentedCodeBlockPreprocessor.runFrom]
  have h1 : (!false && IndentedCodeBlockPreprocessor.isFenceOpen openLine.toList) = true := by
    simp only [Bool.not_false, Bool.true_and]
    exact hopen
  rw [if_pos h1, IndentedCodeBlockPreprocessor.runFrom_inside _ rest hnc]

/-- Witness for C6 at a concrete document. -/
theorem c6_unterminated_block_witness :
    IndentedCodeBlockPreprocessor.isFenceOpen ("  ```py".toList) = true ∧
      (∀ r ∈ ["  a", "b"], IndentedCodeBlockPreprocessor.isFenceClose r.toList = false) ∧
      IndentedCodeBlockPreprocessor.runFrom false 0 ["  ```py", "  a", "b"] = ["```py", "a", "b"] := by
  refine ⟨by decide, by decide, ?_⟩
  rw [c6_unterminated_block 0 "  ```py" ["  a", "b"] (by decide) (by decide)]
  decide

/-- C7: the preprocessor strips exactly the opening-fence indent from each
line of the block, preserving relative indentation. -/
theorem c7_dedent_example :
    IndentedCodeBlockPreprocessor.run ["  ```lang", "  code1", "    code2", "  ```"] =
      ["```lang", "code1", "  code2", "```"] := by decide

/-- C8: both line-oriented stages return exactly as many lines as they
receive. -/
theorem c8_length_preserved (lines : List String) :
    (SectionLinkPreprocessor.run lines).length = lines.length ∧
      (IndentedCodeBlockPreprocessor.run lines).length = lines.length := by
  constructor
  · simp [SectionLinkPreprocessor.run]
  · exact IndentedCodeBlockPreprocessor.runFrom_length lines false 0

/-- C9: anchor normalization is idempotent on whole documents. -/
theorem c9_anchor_idem (lines : List String) :
    SectionLinkPreprocessor.run (SectionLinkPreprocessor.run lines) =
      SectionLinkPreprocessor.run lines := by
  unfold SectionLinkPreprocessor.run
  rw [List.map_map]
  apply List.map_congr_left
  intro s _
  simp only [Function.comp]
  rw [toList_mk, SectionLinkPreprocessor.saGo_idem]

/-- C10: no output line of the anchor normalizer contains the substring
`](##`. -/
theorem c10_no_double_hash (lines : List String) (line : String)
    (hmem : line ∈ SectionLinkPreprocessor.run lines) :
    containsSeq SectionLinkPreprocessor.dblL line.toList = false := by
  unfold SectionLinkPreprocessor.run at hmem
  rw [List.mem_map] at hmem
  obtain ⟨s, _, hs⟩ := hmem
  rw [← hs, toList_mk]
  exact SectionLinkPreprocessor.saGo_no_dbl false s.toList

/-- Witness for C10 at a concrete document. -/
theorem c10_no_double_hash_witness :
    (" - [x](#sec)" ∈ SectionLinkPreprocessor.run [" - [x](##sec)"]) ∧
      containsSeq SectionLinkPreprocessor.dblL " - [x](#sec)".toList = false := by
  have h : " - [x](#sec)" ∈ SectionLinkPreprocessor.run [" - [x](##sec)"] := by decide
  exact ⟨h, c10_no_double_hash [" - [x](##sec)"] " - [x](#sec)" h⟩

namespace CodeBlockPostprocessor

theorem sub1Go_nil (n : Nat) : sub1Go n [] = [] := by cases n <;> rfl

theorem sub2Go_nil (n : Nat) : sub2Go n [] = [] := by cases n <;> rfl

theorem remapGo_nil (n : Nat) : remapGo n [] = [] := by cases n <;> rfl

theorem sub1Go_eq_self (n : Nat) : ∀ l, hasMatch1 l = false → sub1Go n l = l := by
  induction n with
  | zero => intro l _; rfl
  | succ n ih =>
      intro l h
      cases l with
      | nil => rfl
      | cons c rest =>
          rw [hasMatch1] at h
          rw [Bool.or_eq_false_iff] at h
          rw [sub1Go]
          split
          · next hstart =>
              cases hsof : tagSplit (c :: rest) with
              | some pr =>
                  exfalso
                  have := h.1
                  rw [hstart, hsof] at this
                  simp at this
              | none =>
                  show c :: sub1Go n rest = c :: rest
                  rw [ih rest h.2]
          · rw [ih rest h.2]

theorem sub2Go_eq_self (n : Nat) : ∀ l, hasMatch2 l = false → sub2Go n l = l := by
  induction n with
  | zero => intro l _; rfl
  | succ n ih =>
      intro l h
      cases l with
      | nil => rfl
      | cons c rest =>
          rw [hasMatch2] at h
          rw [Bool.or_eq_false_iff] at h
          rw [sub2Go]
          split
          · next hstart =>
              cases hsof : splitOnFirst closeL (List.drop pre2L.length (c :: rest)) with
              | some pr =>
                  exfalso
                  have := h.1
                  rw [hstart, hsof] at this
                  simp at this
              | none =>
                  show c :: sub2Go n rest = c :: rest
                  rw [ih rest h.2]
          · rw [ih rest h.2]

theorem remapGo_eq_self (n : Nat) : ∀ l, containsSeq bashL l = false → remapGo n l = l := by
  induction n with
  | zero => intro l _; rfl
  | succ n ih =>
      intro l h
      cases l with
      | nil => rfl
      | cons c rest =>
          rw [containsSeq] at h
          rw [Bool.or_eq_false_iff] at h
          rw [remapGo]
          split
          · next hstart => rw [hstart] at h; simp at h
          · rw [ih rest h.2]

end CodeBlockPostprocessor

/-- C4: if neither match pass finds a `pre/code` construct in the input,
`CodeBlockPostprocessor.run` returns the input byte-identical (in
particular the remap substitution is not applied). -/
theorem c4_no_match_id (t : String)
    (h1 : CodeBlockPostprocessor.hasMatch1 t.toList = false)
    (h2 : CodeBlockPostprocessor.hasMatch2 t.toList = false) :
    CodeBlockPostprocessor.run t = t := by
  unfold CodeBlockPostprocessor.run CodeBlockPostprocessor.runL
  rw [show CodeBlockPostprocessor.sub1 t.toList = t.toList from
    CodeBlockPostprocessor.sub1Go_eq_self _ _ h1]
  rw [show CodeBlockPostprocessor.sub2 t.toList = t.toList from
    CodeBlockPostprocessor.sub2Go_eq_self _ _ h2]
  simp

/-- Witness for C4 at a concrete input. -/
theorem c4_no_match_id_witness :
    CodeBlockPostprocessor.hasMatch1 "hello <pre> world".toList = false ∧
      CodeBlockPostprocessor.hasMatch2 "hello <pre> world".toList = false ∧
      CodeBlockPostprocessor.run "hello <pre> world" = "hello <pre> world" :=
  ⟨by decide, by decide, c4_no_match_id "hello <pre> world" (by decide) (by decide)⟩


set_option maxRecDepth 40000 in
/-- C1 (bug evidence): on the untagged block `<pre><code>echo hi</code></pre>`
the source emits the raw content as the language parameter value (because
`match.lastindex >= 1` already holds for the single content group of the
untagged pattern), not the literal `none` that the spec and the unit test
`test_run_without_language` require. -/
theorem c1_untagged_language_bug :
    CodeBlockPostprocessor.run "<pre><code>echo hi</code></pre>" =
      "<ac:structured-macro ac:name=\"code\"><ac:parameter ac:name=\"language\">echo hi</ac:parameter><ac:plain-text-body><![CDATA[echo hi]]></ac:plain-text-body></ac:structured-macro>" ∧
      CodeBlockPostprocessor.run "<pre><code>echo hi</code></pre>" ≠
      "<ac:structured-macro ac:name=\"code\"><ac:parameter ac:name=\"language\">none</ac:parameter><ac:plain-text-body><![CDATA[echo hi]]></ac:plain-text-body></ac:structured-macro>" := by
  constructor
  · decide
  · decide

set_option maxHeartbeats 1600000 in
/-- Decoding steps over a character other than the ampersand. -/
theorem unescape_cons_ne_amp (c : Char) (rest : List Char) (hc : c ≠ '&') :
    unescape (c :: rest) = c :: unescape rest :=
  unescape.eq_12 c rest (fun _ hcc _ => absurd hcc hc) (fun _ hcc _ => absurd hcc hc)
    (fun _ hcc _ => absurd hcc hc) (fun _ hcc _ => absurd hcc hc)
    (fun _ hcc _ => absurd hcc hc) (fun _ hcc _ => absurd hcc hc)
    (fun _ hcc _ => absurd hcc hc) (fun _ hcc _ => absurd hcc hc)
    (fun _ hcc _ => absurd hcc hc) (fun _ hcc _ => absurd hcc hc)

/-- C5 helper: decoding is the identity on text without an ampersand. -/
theorem unescape_eq_self : ∀ l : List Char, (∀ ch ∈ l, ch ≠ '&') → unescape l = l := by
  intro l h
  induction l with
  | nil => rfl
  | cons c rest ih =>
      rw [unescape_cons_ne_amp c rest (h c (by simp))]
      rw [ih (fun ch hch => h ch (by simp [hch]))]

/-- C5 counterexample: entity decoding is not idempotent; on the content
`&amp;amp;` a second decode changes the result again. -/
theorem c5_decode_not_idem :
    unescape (unescape "&amp;amp;".toList) ≠ unescape "&amp;amp;".toList := by decide

/-- C5 (amended): entity decoding is idempotent on every content string
whose decoded form no longer contains an ampersand; in general a second
decode can change the result again (see the counterexample). -/
theorem c5_decode_idem_no_amp (c : List Char)
    (h : ∀ ch ∈ unescape c, ch ≠ '&') :
    unescape (unescape c) = unescape c :=
  unescape_eq_self (unescape c) h

/-- Witness for the amended C5 at a concrete content string. -/
theorem c5_decode_idem_no_amp_witness :
    (∀ ch ∈ unescape "a&lt;b".toList, ch ≠ '&') ∧
      unescape (unescape "a&lt;b".toList) = unescape "a&lt;b".toList :=
  ⟨by decide, c5_decode_idem_no_amp "a&lt;b".toList (by decide)⟩

theorem startsL_append_self : ∀ p x : List Char, startsL p (p ++ x) = true := by
  intro p x
  induction p with
  | nil => rfl
  | cons a ps ih => simp [startsL, ih]

theorem startsL_nil_true : ∀ p : List Char, startsL p [] = true → p = [] := by
  intro p h
  cases p with
  | nil => rfl
  | cons a ps => simp [startsL] at h

theorem startsL_split : ∀ p s x : List Char,
    startsL p (s ++ x) = true → startsL p s = true ∨ startsL s p = true := by
  intro p
  induction p with
  | nil => intro s x _; left; rfl
  | cons a ps ih =>
      intro s x h
      cases s with
      | nil => right; rfl
      | cons b s' =>
          rw [List.cons_append] at h
          simp [startsL] at h
          obtain ⟨hab, hrest⟩ := h
          rcases ih s' x hrest with h1 | h1
          · left; simp [startsL, hab, h1]
          · right; simp [startsL, hab.symm, h1]

theorem containsSeq_append_no_overlap (pat : List Char) :
    ∀ s : List Char,
      (∀ i, i < s.length →
        startsL pat (List.drop i s) = false ∧ startsL (List.drop i s) pat = false) →
      ∀ x, containsSeq pat (s ++ x) = containsSeq pat x := by
  intro s
  induction s with
  | nil => intro _ x; rfl
  | cons a s' ih =>
      intro h x
      rw [List.cons_append, containsSeq]
      have h0 := h 0 (by simp)
      simp only [List.drop_zero] at h0
      cases hstart : startsL pat (a :: (s' ++ x)) with
      | true =>
          exfalso
          rw [show a :: (s' ++ x) = (a :: s') ++ x from rfl] at hstart
          rcases startsL_split pat (a :: s') x hstart with h1 | h1
          · rw [h0.1] at h1; exact Bool.false_ne_true h1
          · rw [h0.2] at h1; exact Bool.false_ne_true h1
      | false =>
          rw [Bool.false_or]
          exact ih (fun i hi => by
            have := h (i + 1) (by simpa using Nat.succ_lt_succ hi)
            simpa [List.drop_succ_cons] using this) x

namespace CodeBlockPostprocessor

theorem noov_shell : ∀ i, i < shellL.length →
    startsL bashL (List.drop i shellL) = false ∧
      startsL (List.drop i shellL) bashL = false := by decide

theorem drop_bash_shell : ∀ j, j < bashL.length → 1 ≤ j →
    startsL (List.drop j bashL) shellL = false ∧
      startsL shellL (List.drop j bashL) = false := by decide

theorem bashL_head : bashL = '<' :: List.drop 1 bashL := by decide

theorem remapGo_drop_transfer :
    ∀ n : Nat, ∀ l : List Char, ∀ j : Nat, l.length ≤ n → 1 ≤ j →
      startsL (List.drop j bashL) (remapGo n l) = true →
      startsL (List.drop j bashL) l = true := by
  intro n
  induction n with
  | zero => intro l j _ _ hpre; exact hpre
  | succ n ih =>
      intro l j hlen hj hpre
      cases l with
      | nil => exact hpre
      | cons c rest =>
          rw [remapGo] at hpre
          by_cases hstart : startsL bashL (c :: rest) = true
          · rw [if_pos hstart] at hpre
            by_cases hjb : bashL.length ≤ j
            · rw [List.drop_eq_nil_of_le hjb]
              rfl
            · exfalso
              push_neg at hjb
              rcases startsL_split _ shellL _ hpre with h1 | h1
              · rw [(drop_bash_shell j hjb hj).1] at h1
                exact Bool.false_ne_true h1
              · rw [(drop_bash_shell j hjb hj).2] at h1
                exact Bool.false_ne_true h1
          · rw [if_neg hstart] at hpre
            cases hd : List.drop j bashL with
            | nil => rfl
            | cons d ds =>
                have hds : ds = List.drop (j + 1) bashL := by
                  have h2 := List.tail_drop bashL j
                  rw [hd] at h2
                  exact h2
                rw [hd] at hpre
                simp [startsL] at hpre
                obtain ⟨hdc, hrest⟩ := hpre
                rw [hds] at hrest
                have hr := ih rest (j + 1) (by simpa using hlen) (by omega) hrest
                subst hdc
                simp [startsL, hds]
                exact hr

theorem remapGo_no_bash :
    ∀ n : Nat, ∀ l : List Char, l.length ≤ n →
      containsSeq bashL (remapGo n l) = false := by
  intro n
  induction n with
  | zero =>
      intro l hlen
      have : l = [] := List.eq_nil_of_length_eq_zero (Nat.le_zero.mp hlen)
      subst this
      decide
  | succ n ih =>
      intro l hlen
      cases l with
      | nil => rw [remapGo_nil]; decide
      | cons c rest =>
          rw [remapGo]
          by_cases hstart : startsL bashL (c :: rest) = true
          · rw [if_pos hstart]
            rw [containsSeq_append_no_overlap bashL shellL noov_shell]
            apply ih
            rw [List.length_drop]
            have hb : 1 ≤ bashL.length := by decide
            simp only [List.length_cons] at hlen ⊢
            omega
          · rw [if_neg hstart]
            rw [containsSeq]
            have h2 : containsSeq bashL (remapGo n rest) = false := by
              apply ih
              simpa using hlen
            rw [h2, Bool.or_false]
            cases h1 : startsL bashL (c :: remapGo n rest) with
            | false => rfl
            | true =>
                exfalso
                rw [bashL_head] at h1
                simp [startsL] at h1
                obtain ⟨hdc, hrest⟩ := h1
                have := remapGo_drop_transfer n rest 1
                  (by simpa using hlen) (by omega) hrest
                apply hstart
                rw [bashL_head]
                simp [startsL, hdc]
                refine ⟨hdc, ?_⟩
                rw [← List.drop_one]
                exact this

end CodeBlockPostprocessor

set_option maxRecDepth 100000 in
/-- C3 counterexample: a pre-existing `bash` language parameter that is
outside any newly emitted macro is nevertheless rewritten to `shell` by
the remap step, because the final substitution runs over the whole text
once any match was transformed. -/
theorem c3_remap_not_local :
    CodeBlockPostprocessor.run "<ac:parameter ac:name=\"language\">bash</ac:parameter><pre><code class=\"language-python\">x</code></pre>" =
      "<ac:parameter ac:name=\"language\">shell</ac:parameter><ac:structured-macro ac:name=\"code\"><ac:parameter ac:name=\"language\">python</ac:parameter><ac:plain-text-body><![CDATA[x]]></ac:plain-text-body></ac:structured-macro>" ∧
      startsL CodeBlockPostprocessor.bashL
        "<ac:parameter ac:name=\"language\">bash</ac:parameter><pre><code class=\"language-python\">x</code></pre>".toList = true ∧
      startsL CodeBlockPostprocessor.bashL
        (CodeBlockPostprocessor.run "<ac:parameter ac:name=\"language\">bash</ac:parameter><pre><code class=\"language-python\">x</code></pre>").toList = false := by
  refine ⟨by decide, by decide, by decide⟩

/-- C3 (amended): whenever the two match passes changed the text, the
bash→shell remap is applied to the entire processed text, so the result
contains no occurrence of the bash language parameter at all — including
any occurrence that was already present outside the newly emitted macros. -/
theorem c3_remap_global (t : String)
    (h : CodeBlockPostprocessor.sub2 (CodeBlockPostprocessor.sub1 t.toList) ≠ t.toList) :
    containsSeq CodeBlockPostprocessor.bashL (CodeBlockPostprocessor.run t).toList = false := by
  simp only [CodeBlockPostprocessor.run, CodeBlockPostprocessor.runL, toList_mk]
  rw [if_neg h]
  exact CodeBlockPostprocessor.remapGo_no_bash _ _ le_rfl

set_option maxRecDepth 100000 in
/-- Witness for the amended C3 at a concrete input. -/
theorem c3_remap_global_witness :
    CodeBlockPostprocessor.sub2 (CodeBlockPostprocessor.sub1 "<ac:parameter ac:name=\"language\">bash</ac:parameter><pre><code>x</code></pre>".toList) ≠ "<ac:parameter ac:name=\"language\">bash</ac:parameter><pre><code>x</code></pre>".toList ∧
      containsSeq CodeBlockPostprocessor.bashL
        (CodeBlockPostprocessor.run "<ac:parameter ac:name=\"language\">bash</ac:parameter><pre><code>x</code></pre>").toList = false :=
  ⟨by decide, c3_remap_global "<ac:parameter ac:name=\"language\">bash</ac:parameter><pre><code>x</code></pre>" (by decide)⟩

theorem takeWhile_append_all (p : Char → Bool) :
    ∀ l r : List Char, (∀ x ∈ l, p x = true) →
      (l ++ r).takeWhile p = l ++ r.takeWhile p := by
  intro l r h
  induction l with
  | nil => simp
  | cons a l' ih =>
      rw [List.cons_append, List.takeWhile_cons, if_pos (h a (by simp))]
      rw [ih (fun x hx => h x (by simp [hx])), List.cons_append]

theorem dropWhile_append_all (p : Char → Bool) :
    ∀ l r : List Char, (∀ x ∈ l, p x = true) →
      (l ++ r).dropWhile p = r.dropWhile p := by
  intro l r h
  induction l with
  | nil => simp
  | cons a l' ih =>
      rw [List.cons_append, List.dropWhile_cons, if_pos (h a (by simp))]
      exact ih (fun x hx => h x (by simp [hx]))

namespace CodeBlockPostprocessor

theorem sof_append (content : List Char)
    (h : ∀ i, i < content.length → startsL closeL (List.drop i (content ++ closeL)) = false) :
    splitOnFirst closeL (content ++ closeL) = some (content, []) := by
  induction content with
  | nil => decide
  | cons c cs ih =>
      rw [List.cons_append, splitOnFirst]
      have h0 := h 0 (by simp)
      simp only [List.drop_zero, List.cons_append] at h0
      rw [if_neg (by rw [h0]; exact Bool.false_ne_true)]
      rw [ih (fun i hi => by
        have := h (i + 1) (by simpa using Nat.succ_lt_succ hi)
        simpa [List.cons_append, List.drop_succ_cons] using this)]
      rfl

theorem sub1Go_block (n : Nat) (lang content : List Char)
    (hl1 : lang ≠ []) (hl2 : ∀ x ∈ lang, isWordChar x = true)
    (hc : ∀ i, i < content.length → startsL closeL (List.drop i (content ++ closeL)) = false) :
    sub1Go (n + 1) (pre1L ++ (lang ++ (qgL ++ (content ++ closeL)))) =
      macro1 lang content := by
  have hqg : qgL = '"' :: '>' :: [] := by decide
  have hstart : startsL pre1L (pre1L ++ (lang ++ (qgL ++ (content ++ closeL)))) = true :=
    startsL_append_self pre1L _
  have hafter : afterPre1 (pre1L ++ (lang ++ (qgL ++ (content ++ closeL)))) =
      lang ++ (qgL ++ (content ++ closeL)) := List.drop_left pre1L _
  have htake : (lang ++ (qgL ++ (content ++ closeL))).takeWhile isWordChar = lang := by
    rw [takeWhile_append_all isWordChar lang _ hl2]
    rw [hqg, List.cons_append, List.takeWhile_cons]
    rw [if_neg (by decide)]
    rw [List.append_nil]
  have hdrop : (lang ++ (qgL ++ (content ++ closeL))).dropWhile isWordChar =
      qgL ++ (content ++ closeL) := by
    rw [dropWhile_append_all isWordChar lang _ hl2]
    rw [hqg, List.cons_append, List.dropWhile_cons]
    rw [if_neg (by decide), ← List.cons_append, ← hqg]
  have hcond : tagCond (pre1L ++ (lang ++ (qgL ++ (content ++ closeL)))) = true := by
    unfold tagCond
    rw [hafter, htake, hdrop]
    cases lang with
    | nil => exact absurd rfl hl1
    | cons a as => simp [startsL_append_self]
  have hsplit : tagSplit (pre1L ++ (lang ++ (qgL ++ (content ++ closeL)))) =
      some (content, []) := by
    unfold tagSplit
    rw [hafter, hdrop]
    rw [show (2 : Nat) = qgL.length from by decide, List.drop_left]
    exact sof_append content hc
  cases hcase : pre1L ++ (lang ++ (qgL ++ (content ++ closeL))) with
  | nil =>
      rw [hcase] at hstart
      exact absurd hstart (by decide)
  | cons c rest =>
      rw [sub1Go, ← hcase]
      rw [hstart, hcond, hsplit]
      rw [if_pos (by decide)]
      show macro1 ((afterPre1 (pre1L ++ (lang ++ (qgL ++ (content ++ closeL))))).takeWhile isWordChar)
          content ++ sub1Go n [] = macro1 lang content
      rw [hafter, htake, sub1Go_nil, List.append_nil]

theorem macro1_ne_block (lang content : List Char) :
    macro1 lang content ≠ pre1L ++ (lang ++ (qgL ++ (content ++ closeL))) := by
  intro h
  have h1 := congrArg (fun l => l[1]?) h
  simp only [macro1] at h1
  rw [show macroP1L ++ lang ++ macroP2L ++ unescape content ++ macroP3L =
    macroP1L ++ (lang ++ (macroP2L ++ (unescape content ++ macroP3L))) from by simp] at h1
  rw [@List.getElem?_append _ macroP1L (lang ++ (macroP2L ++ (unescape content ++ macroP3L))) 1,
      @List.getElem?_append _ pre1L (lang ++ (qgL ++ (content ++ closeL))) 1] at h1
  rw [if_pos (by decide), if_pos (by decide)] at h1
  revert h1
  decide

theorem c2_no_dedent (lang content : List Char)
    (hl1 : lang ≠ []) (hl2 : ∀ x ∈ lang, isWordChar x = true)
    (hc : ∀ i, i < content.length → startsL closeL (List.drop i (content ++ closeL)) = false)
    (h2 : hasMatch2 (macro1 lang content) = false)
    (h4 : containsSeq bashL (macro1 lang content) = false) :
    run (String.mk (pre1L ++ (lang ++ (qgL ++ (content ++ closeL))))) =
      String.mk (macroP1L ++ lang ++ macroP2L ++ unescape content ++ macroP3L) := by
  simp only [run, runL, toList_mk]
  have h0 : 0 < (pre1L ++ (lang ++ (qgL ++ (content ++ closeL)))).length := by
    rw [List.length_append]
    have hp : 0 < pre1L.length := by decide
    omega
  have hsub1 : sub1 (pre1L ++ (lang ++ (qgL ++ (content ++ closeL)))) = macro1 lang content := by
    unfold sub1
    rw [show (pre1L ++ (lang ++ (qgL ++ (content ++ closeL)))).length =
      ((pre1L ++ (lang ++ (qgL ++ (content ++ closeL)))).length - 1) + 1 from by omega]
    exact sub1Go_block _ lang content hl1 hl2 hc
  rw [hsub1]
  rw [show sub2 (macro1 lang content) = macro1 lang content from sub2Go_eq_self _ _ h2]
  rw [if_neg (macro1_ne_block lang content)]
  rw [show remap (macro1 lang content) = macro1 lang content from remapGo_eq_self _ _ h4]
  rfl

end CodeBlockPostprocessor

set_option maxRecDepth 100000 in
/-- C2 counterexample: the translator emits multi-line content with its
common leading indentation intact; the minimum-leading-whitespace
stripping the claim describes (`specDedent`) would have produced a
different body. -/
theorem c2_dedent_counterexample :
    specDedent "  a\n  b".toList = "a\nb".toList ∧
      CodeBlockPostprocessor.run "<pre><code class=\"language-python\">  a\n  b</code></pre>" =
        "<ac:structured-macro ac:name=\"code\"><ac:parameter ac:name=\"language\">python</ac:parameter><ac:plain-text-body><![CDATA[  a\n  b]]></ac:plain-text-body></ac:structured-macro>" ∧
      CodeBlockPostprocessor.run "<pre><code class=\"language-python\">  a\n  b</code></pre>" ≠
        "<ac:structured-macro ac:name=\"code\"><ac:parameter ac:name=\"language\">python</ac:parameter><ac:plain-text-body><![CDATA[a\nb]]></ac:plain-text-body></ac:structured-macro>" := by
  refine ⟨by decide, by decide, by decide⟩

/-- C2 (amended): matched code blocks are emitted with their decoded
content as-is — no indentation stripping is performed, for single-line
and multi-line content alike; the body of the emitted macro is exactly
the entity-decoded content. -/
theorem c2_no_dedent_claim (lang content : List Char)
    (hl1 : lang ≠ []) (hl2 : ∀ x ∈ lang, isWordChar x = true)
    (hc : ∀ i, i < content.length →
      startsL CodeBlockPostprocessor.closeL
        (List.drop i (content ++ CodeBlockPostprocessor.closeL)) = false)
    (h2 : CodeBlockPostprocessor.hasMatch2 (CodeBlockPostprocessor.macro1 lang content) = false)
    (h4 : containsSeq CodeBlockPostprocessor.bashL
      (CodeBlockPostprocessor.macro1 lang content) = false) :
    CodeBlockPostprocessor.run (String.mk (CodeBlockPostprocessor.pre1L ++ (lang ++
        (CodeBlockPostprocessor.qgL ++ (content ++ CodeBlockPostprocessor.closeL))))) =
      String.mk (CodeBlockPostprocessor.macroP1L ++ lang ++ CodeBlockPostprocessor.macroP2L ++
        unescape content ++ CodeBlockPostprocessor.macroP3L) :=
  CodeBlockPostprocessor.c2_no_dedent lang content hl1 hl2 hc h2 h4

set_option maxRecDepth 100000 in
/-- Witness for the amended C2 at a multi-line, uniformly indented content. -/
theorem c2_no_dedent_claim_witness :
    ("python".toList ≠ []) ∧
      (∀ x ∈ "python".toList, isWordChar x = true) ∧
      (∀ i, i < "  a\n  b".toList.length →
        startsL CodeBlockPostprocessor.closeL
          (List.drop i ("  a\n  b".toList ++ CodeBlockPostprocessor.closeL)) = false) ∧
      (CodeBlockPostprocessor.hasMatch2
        (CodeBlockPostprocessor.macro1 "python".toList "  a\n  b".toList) = false) ∧
      (containsSeq CodeBlockPostprocessor.bashL
        (CodeBlockPostprocessor.macro1 "python".toList "  a\n  b".toList) = false) ∧
      CodeBlockPostprocessor.run (String.mk (CodeBlockPostprocessor.pre1L ++ ("python".toList ++
          (CodeBlockPostprocessor.qgL ++ ("  a\n  b".toList ++ CodeBlockPostprocessor.closeL))))) =
        String.mk (CodeBlockPostprocessor.macroP1L ++ "python".toList ++
          CodeBlockPostprocessor.macroP2L ++ unescape "  a\n  b".toList ++
          CodeBlockPostprocessor.macroP3L) :=
  ⟨by decide, by decide, by decide, by decide, by decide,
    c2_no_dedent_claim "python".toList "  a\n  b".toList (by decide) (by decide) (by decide)
      (by decide) (by decide)⟩
